import Mathlib

/-!
# caseconv: the input resolver, the command table and the case converter

A shallow embedding of `cmd/root.go`.  Go strings are byte sequences; a `Text`
is the list of the bytes of a Go string, one `Char` for each byte, so that the
length of a Go string is the length of the list.  Functions of the Go standard
library and of cobra that `root.go` calls are embedded under their Go names in
a namespace named after their package.  The converters of the package
`strcase`, which `root.go` imports, are an argument of the commands; the
properties of the converter itself are stated for the algorithm the
specification gives.
-/

namespace Caseconv

/-- A Go string: its bytes in order, one `Char` for each byte. -/
abbrev Text := List Char

/-- A Go `error` value, represented by the message its `Error()` method returns. -/
abbrev GoError := List Char

/-! ## Standard library: `strings`, `os`, `bufio`, `fmt` -/

namespace strings

/-- Go `strings.Join(elems, sep)`: the elements concatenated with `sep` between
each two of them; the empty string for no element. -/
def Join : List Text → Text → Text
  | [], _ => []
  | [e], _ => e
  | e :: es, sep => e ++ sep ++ Join es sep

end strings

namespace os

/-- Go `os.ModeCharDevice`: the eleventh mode bit counted from bit 31 downwards. -/
def ModeCharDevice : Nat := 1 <<< (32 - 1 - 10)

/-- Go `os.ModeDevice`. -/
def ModeDevice : Nat := 1 <<< (32 - 1 - 5)

/-- Go `os.ModeNamedPipe`. -/
def ModeNamedPipe : Nat := 1 <<< (32 - 1 - 6)

/-- The process's standard input, `os.Stdin`, as far as `root.go` observes it:
what `Stat()` answers (an error, or the `FileMode` bits of the file), the bytes
not yet read, and the error a read reports once those bytes are exhausted
(`none` for a plain end of file, `io.EOF`). -/
structure File where
  stat : Except GoError Nat
  data : Text
  readErr : Option GoError

end os

namespace bufio

/-- Go `bufio.MaxScanTokenSize`: the size of the largest buffer a `Scanner`
made by `NewScanner` allocates. -/
def MaxScanTokenSize : Nat := 64 * 1024

/-- Go `bufio.ErrTooLong`. -/
def ErrTooLong : GoError := "bufio.Scanner: token too long".toList

/-- Go `bufio.dropCR`: drops one terminal carriage return from the data. -/
def dropCR (data : Text) : Text :=
  if data.getLast? = some '\r' then data.dropLast else data

/-- Go `bufio.ScanLines`, the split function of a `Scanner` made by `NewScanner`:
the number of bytes to advance and the token found, if any. -/
def ScanLines (data : Text) (atEOF : Bool) : Nat × Option Text :=
  if atEOF ∧ data.length = 0 then (0, none)
  else
    let i := data.indexOf '\n'
    if i < data.length then (i + 1, some (dropCR (data.take i)))
    else if atEOF then (data.length, some (dropCR data))
    else (0, none)

/-- A `bufio.Scanner` over a file: the file with the bytes the scanner has not
yet taken, the last token, the first non-EOF error, and whether scanning has
stopped. -/
structure Scanner where
  r : os.File
  token : Text
  err : Option GoError
  done : Bool

/-- Go `bufio.NewScanner(r)`. -/
def NewScanner (r : os.File) : Scanner :=
  { r := r, token := [], err := none, done := false }

/-- Go `(*Scanner).Scan`: advances to the next token, returning `false` when
scanning stops.  The scanner gathers the bytes of the line being assembled in a
buffer that grows up to `MaxScanTokenSize` bytes; when the buffer is full and
the split function has found no token in it, scanning stops with `ErrTooLong`.
Otherwise the split function sees the line complete (or the rest of the input
at its end) and its token is delivered.  At the end of the input scanning
stops, with the read error of the file when it is not `io.EOF`. -/
def Scanner.Scan (s : Scanner) : Bool × Scanner :=
  if s.done then (false, s)
  else if MaxScanTokenSize ≤ s.r.data.indexOf '\n' then
    (false, { s with r := { s.r with data := s.r.data.drop MaxScanTokenSize },
                     token := [], err := some ErrTooLong, done := true })
  else
    match ScanLines s.r.data true with
    | (advance, some token) =>
      (true, { s with r := { s.r with data := s.r.data.drop advance }, token := token })
    | (_, none) => (false, { s with token := [], err := s.r.readErr, done := true })

/-- Go `(*Scanner).Text`. -/
def Scanner.Text (s : Scanner) : Text := s.token

/-- Go `(*Scanner).Err`: the first non-EOF error the scanner met. -/
def Scanner.Err (s : Scanner) : Option GoError := s.err

end bufio

/-- The loop `for scanner.Scan() { lines = append(lines, scanner.Text()) }` of
`getInputText`, run for at most `fuel` iterations. -/
def scanLoop : Nat → bufio.Scanner → List Text → List Text × bufio.Scanner
  | 0, s, lines => (lines, s)
  | fuel + 1, s, lines =>
    match s.Scan with
    | (true, s') => scanLoop fuel s' (lines ++ [s'.Text])
    | (false, s') => (lines, s')

/-- The message of the error `getInputText` makes with `fmt.Errorf`. -/
def noInputMessage : GoError :=
  "no input provided. Please provide text as an argument or pipe it via stdin".toList

/-- The function `getInputText` of `cmd/root.go` (its unused `cmd` parameter
left out): the returned string and error, and standard input afterwards.  Every
iteration of the scanning loop takes at least one byte or is the last, so the
loop is given one more iteration than there are bytes to read. -/
def getInputText (args : List Text) (stdin : os.File) : (Text × Option GoError) × os.File :=
  if args.length > 0 then
    ((strings.Join args " ".toList, none), stdin)
  else
    match stdin.stat with
    | .error err => (([], some err), stdin)
    | .ok mode =>
      if mode &&& os.ModeCharDevice = 0 then
        let (lines, scanner) := scanLoop (stdin.data.length + 1) (bufio.NewScanner stdin) []
        match scanner.Err with
        | some err => (([], some err), scanner.r)
        | none => ((strings.Join lines "\n".toList, none), scanner.r)
      else
        (([], some noInputMessage), stdin)

/-! ## The commands -/

/-- What a run of the program reads and writes: standard input, and the bytes
written to standard output so far.  Standard error, where cobra reports the
error of a run, is left out. -/
structure World where
  stdin : os.File
  stdout : Text

namespace fmt

/-- Go `fmt.Println(s)` for one string operand: writes the string and a newline
to standard output. -/
def Println (s : Text) (w : World) : World :=
  { w with stdout := w.stdout ++ s ++ "\n".toList }

end fmt

/-- The eight converters `root.go` imports from the package
`github.com/ettle/strcase`, which is not part of this repository: the commands
are embedded over any implementation of them. -/
structure Strcase where
  ToCamel : Text → Text
  ToGoCamel : Text → Text
  ToPascal : Text → Text
  ToGoPascal : Text → Text
  ToSnake : Text → Text
  ToSNAKE : Text → Text
  ToKebab : Text → Text
  ToKEBAB : Text → Text

namespace cobra

/-- The fields of a `cobra.Command` that `root.go` sets, and the subcommands
registered on it.  `RunE` gets the positional arguments and returns the error
of the run, `none` for `nil`. -/
structure Command where
  Use : Text
  Short : Text
  Long : Text
  RunE : Option (List Text → World → Option GoError × World)
  commands : List Command

/-- Go `(*Command).Name`: the first word of `Use`. -/
def Command.Name (c : Command) : Text := c.Use.takeWhile (fun b => b ≠ ' ')

/-- Go `(*Command).AddCommand` for one subcommand. -/
def Command.AddCommand (c : Command) (sub : Command) : Command :=
  { c with commands := c.commands ++ [sub] }

/-- Go `(*Command).Execute` on the arguments `os.Args[1:]`, for the invocations
`<name> <text>...` of a registered subcommand in which no argument begins with
`-`: cobra then finds the one subcommand of that name and returns the error of
its `RunE` on the remaining arguments, writing nothing to standard output
itself.  Other invocations (flags, help, unknown or missing command names) are
left out of the embedding: `none`. -/
def Command.Execute (c : Command) (argv : List Text) (w : World) :
    Option (Option GoError × World) :=
  match argv with
  | [] => none
  | name :: args =>
    if (name :: args).any (fun a => a.head? = some '-') then none
    else
      match c.commands.filter (fun sub => sub.Name = name) with
      | [sub] =>
        match sub.RunE with
        | some run => some (run args w)
        | none => none
      | _ => none

end cobra

/-- The variable `rootCmd`. -/
def rootCmd : cobra.Command :=
  { Use := "caseconv".toList
    Short := "Convert text to different cases".toList
    Long := ("A CLI tool to convert text to different cases using various " ++
      "conversion functions.\n" ++
      "\t\nExamples:\n  caseconv camel \"hello world\"\n  caseconv snake \"HelloWorld\" \n" ++
      "  echo \"hello world\" | caseconv pascal").toList
    RunE := none
    commands := [] }

variable (strcase : Strcase)

/-- The variable `camelCmd`. -/
def camelCmd : cobra.Command :=
  { Use := "camel [text]".toList
    Short := "Convert text to camelCase".toList
    Long := "Convert text to camelCase (e.g., \x27hello world\x27 -> \x27helloWorld\x27)".toList
    RunE := some fun args w =>
      match getInputText args w.stdin with
      | ((_, some err), stdin) => (some err, { w with stdin := stdin })
      | ((text, none), stdin) =>
        (none, fmt.Println (strcase.ToCamel text) { w with stdin := stdin })
    commands := [] }

/-- The variable `goCamelCmd`. -/
def goCamelCmd : cobra.Command :=
  { Use := "gocamel [text]".toList
    Short := "Convert text to Go-style camelCase".toList
    Long := "Convert text to Go-style camelCase with special handling for Go identifiers".toList
    RunE := some fun args w =>
      match getInputText args w.stdin with
      | ((_, some err), stdin) => (some err, { w with stdin := stdin })
      | ((text, none), stdin) =>
        (none, fmt.Println (strcase.ToGoCamel text) { w with stdin := stdin })
    commands := [] }

/-- The variable `pascalCmd`. -/
def pascalCmd : cobra.Command :=
  { Use := "pascal [text]".toList
    Short := "Convert text to PascalCase".toList
    Long := "Convert text to PascalCase (e.g., \x27hello world\x27 -> \x27HelloWorld\x27)".toList
    RunE := some fun args w =>
      match getInputText args w.stdin with
      | ((_, some err), stdin) => (some err, { w with stdin := stdin })
      | ((text, none), stdin) =>
        (none, fmt.Println (strcase.ToPascal text) { w with stdin := stdin })
    commands := [] }

/-- The variable `goPascalCmd`. -/
def goPascalCmd : cobra.Command :=
  { Use := "gopascal [text]".toList
    Short := "Convert text to Go-style PascalCase".toList
    Long := "Convert text to Go-style PascalCase with special handling for Go identifiers".toList
    RunE := some fun args w =>
      match getInputText args w.stdin with
      | ((_, some err), stdin) => (some err, { w with stdin := stdin })
      | ((text, none), stdin) =>
        (none, fmt.Println (strcase.ToGoPascal text) { w with stdin := stdin })
    commands := [] }

/-- The variable `snakeCmd`. -/
def snakeCmd : cobra.Command :=
  { Use := "snake [text]".toList
    Short := "Convert text to snake_case".toList
    Long := "Convert text to snake_case (e.g., \x27hello world\x27 -> \x27hello_world\x27)".toList
    RunE := some fun args w =>
      match getInputText args w.stdin with
      | ((_, some err), stdin) => (some err, { w with stdin := stdin })
      | ((text, none), stdin) =>
        (none, fmt.Println (strcase.ToSnake text) { w with stdin := stdin })
    commands := [] }

/-- The variable `kebabCmd`. -/
def kebabCmd : cobra.Command :=
  { Use := "kebab [text]".toList
    Short := "Convert text to kebab-case".toList
    Long := "Convert text to kebab-case (e.g., \x27hello world\x27 -> \x27hello-world\x27)".toList
    RunE := some fun args w =>
      match getInputText args w.stdin with
      | ((_, some err), stdin) => (some err, { w with stdin := stdin })
      | ((text, none), stdin) =>
        (none, fmt.Println (strcase.ToKebab text) { w with stdin := stdin })
    commands := [] }

/-- The variable `upperSnakeCmd`. -/
def upperSnakeCmd : cobra.Command :=
  { Use := "uppersnake [text]".toList
    Short := "Convert text to UPPER_SNAKE_CASE".toList
    Long := ("Convert text to UPPER_SNAKE_CASE " ++
      "(e.g., \x27hello world\x27 -> \x27HELLO_WORLD\x27)").toList
    RunE := some fun args w =>
      match getInputText args w.stdin with
      | ((_, some err), stdin) => (some err, { w with stdin := stdin })
      | ((text, none), stdin) =>
        (none, fmt.Println (strcase.ToSNAKE text) { w with stdin := stdin })
    commands := [] }

/-- The variable `upperKebabCmd`. -/
def upperKebabCmd : cobra.Command :=
  { Use := "upperkebab [text]".toList
    Short := "Convert text to UPPER-KEBAB-CASE".toList
    Long := ("Convert text to UPPER-KEBAB-CASE " ++
      "(e.g., \x27hello world\x27 -> \x27HELLO-WORLD\x27)").toList
    RunE := some fun args w =>
      match getInputText args w.stdin with
      | ((_, some err), stdin) => (some err, { w with stdin := stdin })
      | ((text, none), stdin) =>
        (none, fmt.Println (strcase.ToKEBAB text) { w with stdin := stdin })
    commands := [] }

/-- The shape the `RunE` functions of the eight commands share, for a converter
`conv`: resolve the text, return the error if there is one, else print the
converted text and return `nil`. -/
def runWith (conv : Text → Text) (args : List Text) (w : World) : Option GoError × World :=
  match getInputText args w.stdin with
  | ((_, some err), stdin) => (some err, { w with stdin := stdin })
  | ((text, none), stdin) => (none, fmt.Println (conv text) { w with stdin := stdin })

/-- The function `init`, applied to the root command: the eight registrations
in the order of the source. -/
def init (root : cobra.Command) : cobra.Command :=
  (((((((root.AddCommand (camelCmd strcase)).AddCommand (goCamelCmd strcase)).AddCommand
    (pascalCmd strcase)).AddCommand (goPascalCmd strcase)).AddCommand
    (snakeCmd strcase)).AddCommand (upperSnakeCmd strcase)).AddCommand
    (kebabCmd strcase)).AddCommand (upperKebabCmd strcase)

/-- The function `Execute`, run after `init` on the arguments `os.Args[1:]`:
the status `os.Exit` was called with (`none` when `Execute` returns without
calling it) and the world afterwards; `none` for the invocations the embedding
of cobra leaves out. -/
def Execute (argv : List Text) (w : World) : Option (Option Nat × World) :=
  match (init strcase rootCmd).Execute argv w with
  | none => none
  | some (some _, w') => some (some 1, w')
  | some (none, w') => some (none, w')

/-! ## The lines of a text -/

/-- The segments of a text around its newlines: every segment but the last is
one that a newline ends, the last is the rest after the last newline (the whole
text when it has no newline) and may be empty. -/
def segments (c : Text) : List Text := c.splitOn '\n'

/-- The lines of a text as the scanner yields them: the segments a newline
ends, then the last segment unless it is empty, each without one terminal
carriage return. -/
def scannedLines (c : Text) : List Text :=
  (segments c).dropLast.map bufio.dropCR ++
    (if (segments c).getLast? = some [] then []
      else [bufio.dropCR ((segments c).getLast?.getD [])])

/-- Whether a segment of the text has `bufio.MaxScanTokenSize` bytes or more. -/
def hasLongLine (c : Text) : Bool :=
  (segments c).any (fun seg => decide (bufio.MaxScanTokenSize ≤ seg.length))

/-- The lines of a text as claim C4 words them: the segments a newline ends,
each without one carriage return before the newline, and the unterminated last
segment, as it is, unless it is empty. -/
def specLines (c : Text) : List Text :=
  (segments c).dropLast.map bufio.dropCR ++
    (if (segments c).getLast? = some [] then [] else [(segments c).getLast?.getD []])

/-! ## States of standard input -/

/-- Standard input is an interactive terminal: `Stat` succeeds and the mode it
answers has the character-device bit set. -/
def isTerminal (stdin : os.File) : Bool :=
  match stdin.stat with
  | .ok mode => mode &&& os.ModeCharDevice != 0
  | .error _ => false

/-- Standard input is not interactive (a pipe or a redirection): `Stat` succeeds
and the mode it answers has the character-device bit clear. -/
def isPiped (stdin : os.File) : Bool :=
  match stdin.stat with
  | .ok mode => mode &&& os.ModeCharDevice == 0
  | .error _ => false

/-- A pipe holding the given bytes, closed at their end. -/
def pipeOf (data : Text) : os.File :=
  { stat := .ok (os.ModeNamedPipe ||| 0o600), data := data, readErr := none }

/-- A terminal at which nothing has been typed. -/
def terminal : os.File :=
  { stat := .ok (os.ModeDevice ||| os.ModeCharDevice ||| 0o620), data := [], readErr := none }

/-- A line of `bufio.MaxScanTokenSize` bytes, with no newline. -/
def longLine : Text := List.replicate bufio.MaxScanTokenSize 'a'

/-! ## The case converter

`root.go` takes its converters from the package `github.com/ettle/strcase`,
which is not part of the repository.  The converter below follows the
algorithm the specification gives for it (section 4.2), over ASCII letters,
digits and white space. -/

/-- Modelled from the spec: the `CasingRule` of the data model, one variant for
each converter of the absent package `strcase`. -/
inductive CasingRule where
  | camel
  | goCamel
  | pascal
  | goPascal
  | snake
  | upperSnake
  | kebab
  | upperKebab
deriving DecidableEq

/-- Modelled from the spec: the characters the tokenizer of the absent converter
splits on and drops, "whitespace, `-`, `_`". -/
def isSeparator (c : Char) : Bool := c.isWhitespace || c == '-' || c == '_'

/-- Modelled from the spec: whether the tokenizer of the absent converter puts a
Word boundary between two adjacent characters `prev` and `cur` of a run without
separators, `next` being the character after `cur`: at a transition
"lowercase→uppercase, letter→digit, digit→letter", and inside a run of
uppercase letters "before the last uppercase letter" when a lowercase letter
follows it. -/
def boundary (prev cur : Char) (next : Option Char) : Bool :=
  (prev.isLower && cur.isUpper) || (prev.isAlpha && cur.isDigit) ||
    (prev.isDigit && cur.isAlpha) ||
    (prev.isUpper && cur.isUpper && next.any Char.isLower)

/-- Modelled from the spec: step 1 of the algorithm of the absent converter,
"Tokenize `text` into a sequence of Words".  Separators are dropped; a
character that is followed by a separator, by a boundary or by the end of the
text ends its Word, any other character is put before the Word of the
character that follows it. -/
def tokenize : Text → List Text
  | [] => []
  | c :: rest =>
    if isSeparator c then tokenize rest
    else
      match rest with
      | [] => [[c]]
      | d :: rest' =>
        if isSeparator d || boundary c d rest'.head? then [c] :: tokenize (d :: rest')
        else
          match tokenize (d :: rest') with
          | [] => [[c]]
          | w :: ws => (c :: w) :: ws

/-- Modelled from the spec: "upper-cased" in the absent converter. -/
def upper (w : Text) : Text := w.map Char.toUpper

/-- Modelled from the spec: "lower-cased" in the absent converter. -/
def lower (w : Text) : Text := w.map Char.toLower

/-- Modelled from the spec: "Capitalized-first" in the absent converter, "first
character to upper-case, remaining characters to lower-case". -/
def capitalize : Text → Text
  | [] => []
  | c :: cs => c.toUpper :: lower cs

/-- Modelled from the spec: the initialisms the specification lists for the
Go-flavored rules of the absent converter, "ID, URL, HTTP, API, JSON, SQL",
lower-cased.  The specification leaves the rest of the set open; the converter
takes the set as an argument. -/
def listedInitialisms : List Text :=
  ["id".toList, "url".toList, "http".toList, "api".toList, "json".toList, "sql".toList]

/-- Modelled from the spec: step 2 of the algorithm of the absent converter,
whether "a Word's lower-cased form matches" the set of initialisms. -/
def isInitialism (inits : List Text) (w : Text) : Bool := inits.contains (lower w)

/-- Modelled from the spec: steps 2 and 3 of the algorithm of the absent
converter for one Word, `first` telling whether it is the first Word of the
text.  The specification words the Go-flavored rules twice: in step 2, "render
it fully upper-case regardless of position", and in step 3, where camel is
"first Word lower-cased entirely; subsequent Words capitalized-first" and
capitalized-first is lower-casing after the first character "unless the Word is
flagged as an acronym under a Go-flavored rule (then fully upper-case)".  The
two differ on a first Word that is an initialism under the Go-flavored camel
rule; the rendering follows step 3, which is what `ToGoCamel` of the package
does: its first word is lower-case. -/
def renderWord (inits : List Text) (rule : CasingRule) (first : Bool) (w : Text) : Text :=
  match rule with
  | .camel => if first then lower w else capitalize w
  | .goCamel =>
    if first then lower w else if isInitialism inits w then upper w else capitalize w
  | .pascal => capitalize w
  | .goPascal => if isInitialism inits w then upper w else capitalize w
  | .snake => lower w
  | .upperSnake => upper w
  | .kebab => lower w
  | .upperKebab => upper w

/-- Modelled from the spec: the separator step 3 of the algorithm of the absent
converter joins the Words with. -/
def separator : CasingRule → Text
  | .snake => "_".toList
  | .upperSnake => "_".toList
  | .kebab => "-".toList
  | .upperKebab => "-".toList
  | _ => []

/-- Modelled from the spec: the Words of a text as a rule renders them. -/
def renderWords (inits : List Text) (rule : CasingRule) : List Text → List Text
  | [] => []
  | w :: ws => renderWord inits rule true w :: ws.map (renderWord inits rule false)

/-- Modelled from the spec: the contract `convert(text, rule)` of the absent
converter, for a set of initialisms: tokenize, render each Word, re-join. -/
def convert (inits : List Text) (text : Text) (rule : CasingRule) : Text :=
  strings.Join (renderWords inits rule (tokenize text)) (separator rule)

/-- Modelled from the spec: the eight converters of the absent package
`strcase`, each the `convert` of the rule the specification pairs with its
command. -/
def specStrcase (inits : List Text) : Strcase :=
  { ToCamel := fun text => convert inits text .camel
    ToGoCamel := fun text => convert inits text .goCamel
    ToPascal := fun text => convert inits text .pascal
    ToGoPascal := fun text => convert inits text .goPascal
    ToSnake := fun text => convert inits text .snake
    ToSNAKE := fun text => convert inits text .upperSnake
    ToKebab := fun text => convert inits text .kebab
    ToKEBAB := fun text => convert inits text .upperKebab }

/-- Whether two adjacent characters are a letter and a digit, in either order. -/
def mixed (p c : Char) : Bool := (p.isAlpha && c.isDigit) || (p.isDigit && c.isAlpha)

/-- What every Word of the tokenizer is: not empty, without separators, and
without a letter next to a digit. -/
def wordlike : Text → Bool
  | [] => false
  | [c] => !isSeparator c
  | c :: d :: rest => !isSeparator c && !mixed c d && wordlike (d :: rest)

/-- A word with its first letter upper-cased and the rest as it is. -/
def upperFirst : Text → Text
  | [] => []
  | c :: cs => c.toUpper :: cs

/-- A word of the kind the examples of the specification are made of: a
non-empty run of lowercase ASCII letters. -/
def isLowerWord (w : Text) : Bool := !w.isEmpty && w.all Char.isLower

/-! ## Lemmas on scanning -/

theorem segments_nil : segments [] = [[]] := rfl

theorem segments_of_not_mem {c : Text} (h : '\n' ∉ c) : segments c = [c] := by
  unfold segments List.splitOn
  apply List.splitOnP_eq_single
  intro x hx
  simp only [beq_iff_eq]
  rintro rfl
  exact h hx

theorem segments_append_cons {pre : Text} (h : '\n' ∉ pre) (rest : Text) :
    segments (pre ++ '\n' :: rest) = pre :: segments rest := by
  unfold segments List.splitOn
  apply List.splitOnP_first
  · intro x hx
    simp only [beq_iff_eq]
    rintro rfl
    exact h hx
  · simp

theorem segments_ne_nil (c : Text) : segments c ≠ [] := List.splitOnP_ne_nil _ _

theorem split_at_newline {c : Text} (h : '\n' ∈ c) :
    c = c.take (c.indexOf '\n') ++ '\n' :: c.drop (c.indexOf '\n' + 1) ∧
      '\n' ∉ c.take (c.indexOf '\n') := by
  induction c with
  | nil => simp at h
  | cons x xs ih =>
    by_cases hx : x = '\n'
    · subst hx
      simp
    · have hmem : '\n' ∈ xs := by
        rcases List.mem_cons.1 h with h1 | h1
        · exact absurd h1.symm hx
        · exact h1
      have := ih hmem
      rw [List.indexOf_cons_ne _ hx]
      simp only [List.take_succ_cons, List.drop_succ_cons, List.cons_append, List.mem_cons, not_or]
      refine ⟨by rw [← this.1], ?_, this.2⟩
      exact fun h => hx h.symm

theorem indexOf_append_newline {pre : Text} (h : '\n' ∉ pre) (rest : Text) :
    (pre ++ '\n' :: rest).indexOf '\n' = pre.length := by
  rw [List.indexOf_append_of_not_mem h, List.indexOf_cons_self, Nat.add_zero]

theorem scannedLines_nil : scannedLines [] = [] := rfl

theorem scannedLines_of_not_mem {c : Text} (h : '\n' ∉ c) (hc : c ≠ []) :
    scannedLines c = [bufio.dropCR c] := by
  simp [scannedLines, segments_of_not_mem h, hc]

theorem scannedLines_append_cons {pre : Text} (h : '\n' ∉ pre) (rest : Text) :
    scannedLines (pre ++ '\n' :: rest) = bufio.dropCR pre :: scannedLines rest := by
  obtain ⟨x, xs, hx⟩ := List.exists_cons_of_ne_nil (segments_ne_nil rest)
  simp [scannedLines, segments_append_cons h, hx, List.getLast?_cons_cons]

theorem hasLongLine_nil : hasLongLine [] = false := by
  simp [hasLongLine, segments_nil, bufio.MaxScanTokenSize]

theorem hasLongLine_of_not_mem {c : Text} (h : '\n' ∉ c) :
    hasLongLine c = decide (bufio.MaxScanTokenSize ≤ c.length) := by
  simp [hasLongLine, segments_of_not_mem h]

theorem hasLongLine_append_cons {pre : Text} (h : '\n' ∉ pre) (rest : Text) :
    hasLongLine (pre ++ '\n' :: rest) =
      (decide (bufio.MaxScanTokenSize ≤ pre.length) || hasLongLine rest) := by
  simp [hasLongLine, segments_append_cons h]

theorem Scan_line (f : os.File) (t : Text) (e : Option GoError) {pre rest : Text}
    (hd : f.data = pre ++ '\n' :: rest) (h : '\n' ∉ pre)
    (hlen : pre.length < bufio.MaxScanTokenSize) :
    bufio.Scanner.Scan ⟨f, t, e, false⟩ =
      (true, ⟨{ f with data := rest }, bufio.dropCR pre, e, false⟩) := by
  have hi := indexOf_append_newline h rest
  simp [bufio.Scanner.Scan, bufio.ScanLines, hd, hi, Nat.not_le.2 hlen]

theorem Scan_last (f : os.File) (t : Text) (e : Option GoError)
    (h : '\n' ∉ f.data) (hne : f.data ≠ []) (hlen : f.data.length < bufio.MaxScanTokenSize) :
    bufio.Scanner.Scan ⟨f, t, e, false⟩ =
      (true, ⟨{ f with data := [] }, bufio.dropCR f.data, e, false⟩) := by
  have hi := List.indexOf_of_not_mem h
  simp [bufio.Scanner.Scan, bufio.ScanLines, hi, Nat.not_le.2 hlen, hne]

theorem Scan_end (f : os.File) (t : Text) (e : Option GoError) (h : f.data = []) :
    bufio.Scanner.Scan ⟨f, t, e, false⟩ = (false, ⟨f, [], f.readErr, true⟩) := by
  simp [bufio.Scanner.Scan, bufio.ScanLines, h, bufio.MaxScanTokenSize]

theorem Scan_tooLong (f : os.File) (t : Text) (e : Option GoError)
    (h : bufio.MaxScanTokenSize ≤ f.data.indexOf '\n') :
    bufio.Scanner.Scan ⟨f, t, e, false⟩ =
      (false, ⟨{ f with data := f.data.drop bufio.MaxScanTokenSize }, [],
        some bufio.ErrTooLong, true⟩) := by
  simp [bufio.Scanner.Scan, h]

theorem scanLoop_short : ∀ (fuel : Nat) (f : os.File) (t : Text) (e : Option GoError)
    (lines : List Text), f.data.length < fuel → hasLongLine f.data = false →
    scanLoop fuel ⟨f, t, e, false⟩ lines =
      (lines ++ scannedLines f.data, ⟨{ f with data := [] }, [], f.readErr, true⟩) := by
  intro fuel
  induction fuel with
  | zero => intro f t e lines h; omega
  | succ n ih =>
    intro f t e lines hfuel hshort
    by_cases hnl : '\n' ∈ f.data
    · obtain ⟨hsplit, hpre⟩ := split_at_newline hnl
      generalize f.data.take (f.data.indexOf '\n') = pre at hsplit hpre
      generalize f.data.drop (f.data.indexOf '\n' + 1) = rest at hsplit
      rw [hsplit, hasLongLine_append_cons hpre] at hshort
      simp only [Bool.or_eq_false_iff, decide_eq_false_iff_not, Nat.not_le] at hshort
      have hlen : rest.length < n := by
        have := congrArg List.length hsplit
        simp at this
        omega
      rw [scanLoop, Scan_line f t e hsplit hpre hshort.1]
      simp only [bufio.Scanner.Text]
      rw [ih { f with data := rest } _ e _ hlen hshort.2, hsplit, scannedLines_append_cons hpre]
      simp
    · by_cases hne : f.data = []
      · rw [scanLoop, Scan_end f t e hne, hne, scannedLines_nil]
        simp
        cases f
        simp_all
      · rw [hasLongLine_of_not_mem hnl] at hshort
        simp only [decide_eq_false_iff_not, Nat.not_le] at hshort
        rw [scanLoop, Scan_last f t e hnl hne hshort]
        simp only [bufio.Scanner.Text]
        cases n with
        | zero =>
          have : f.data.length = 0 := by omega
          exact absurd (List.length_eq_zero.1 this) hne
        | succ m =>
          rw [scanLoop, Scan_end _ _ e rfl, scannedLines_of_not_mem hnl hne]

theorem scanLoop_long : ∀ (fuel : Nat) (f : os.File) (t : Text) (e : Option GoError)
    (lines : List Text), f.data.length < fuel → hasLongLine f.data = true →
    (scanLoop fuel ⟨f, t, e, false⟩ lines).2.Err = some bufio.ErrTooLong := by
  intro fuel
  induction fuel with
  | zero => intro f t e lines h; omega
  | succ n ih =>
    intro f t e lines hfuel hlong
    by_cases hbig : bufio.MaxScanTokenSize ≤ f.data.indexOf '\n'
    · rw [scanLoop, Scan_tooLong f t e hbig]
      rfl
    · by_cases hnl : '\n' ∈ f.data
      · obtain ⟨hsplit, hpre⟩ := split_at_newline hnl
        generalize hp : f.data.take (f.data.indexOf '\n') = pre at hsplit hpre
        generalize f.data.drop (f.data.indexOf '\n' + 1) = rest at hsplit
        have hidx : f.data.indexOf '\n' = pre.length := by
          rw [hsplit]; exact indexOf_append_newline hpre rest
        rw [hidx] at hbig
        rw [hsplit, hasLongLine_append_cons hpre] at hlong
        simp only [Bool.or_eq_true, decide_eq_true_eq] at hlong
        have hlong' : hasLongLine rest = true := by
          rcases hlong with h | h
          · exact absurd h hbig
          · exact h
        have hlen : rest.length < n := by
          have := congrArg List.length hsplit
          simp at this
          omega
        rw [scanLoop, Scan_line f t e hsplit hpre (Nat.not_le.1 hbig)]
        exact ih { f with data := rest } _ e _ hlen hlong'
      · rw [hasLongLine_of_not_mem hnl] at hlong
        rw [List.indexOf_of_not_mem hnl] at hbig
        simp at hlong
        exact absurd hlong hbig

theorem Join_eq_intercalate (elems : List Text) (sep : Text) :
    strings.Join elems sep = sep.intercalate elems := by
  induction elems with
  | nil => rfl
  | cons e es ih =>
    cases es with
    | nil => simp [strings.Join, List.intercalate]
    | cons e' es' =>
      rw [strings.Join, ih]
      · simp [List.intercalate, List.intersperse]
      · simp

theorem getInputText_unfold_piped (stdin : os.File) (hp : isPiped stdin = true) :
    getInputText [] stdin =
      match (scanLoop (stdin.data.length + 1) (bufio.NewScanner stdin) []).2.Err with
      | some err =>
        (([], some err), (scanLoop (stdin.data.length + 1) (bufio.NewScanner stdin) []).2.r)
      | none =>
        ((strings.Join (scanLoop (stdin.data.length + 1) (bufio.NewScanner stdin) []).1
            "\n".toList, none),
          (scanLoop (stdin.data.length + 1) (bufio.NewScanner stdin) []).2.r) := by
  unfold isPiped at hp
  unfold getInputText
  cases hst : stdin.stat with
  | error e => simp [hst] at hp
  | ok mode =>
    simp only [hst, beq_iff_eq] at hp
    simp [hp]

theorem getInputText_piped_short (stdin : os.File) (hp : isPiped stdin = true)
    (hs : hasLongLine stdin.data = false) :
    getInputText [] stdin =
      match stdin.readErr with
      | some err => (([], some err), { stdin with data := [] })
      | none => ((strings.Join (scannedLines stdin.data) "\n".toList, none),
          { stdin with data := [] }) := by
  rw [getInputText_unfold_piped stdin hp]
  have := scanLoop_short (stdin.data.length + 1) stdin [] none [] (Nat.lt_succ_self _) hs
  rw [bufio.NewScanner, this]
  simp [bufio.Scanner.Err]

theorem getInputText_piped_long (stdin : os.File) (hp : isPiped stdin = true)
    (hs : hasLongLine stdin.data = true) :
    (getInputText [] stdin).1 = ([], some bufio.ErrTooLong) := by
  rw [getInputText_unfold_piped stdin hp]
  have := scanLoop_long (stdin.data.length + 1) stdin [] none [] (Nat.lt_succ_self _) hs
  rw [bufio.NewScanner, this]

theorem getInputText_not_piped (stdin : os.File) (hp : isPiped stdin = false) :
    ∃ err, getInputText [] stdin = (([], some err), stdin) := by
  unfold isPiped at hp
  unfold getInputText
  cases hst : stdin.stat with
  | error e => exact ⟨e, by simp⟩
  | ok mode =>
    simp only [hst, beq_eq_false_iff_ne, ne_eq] at hp
    exact ⟨noInputMessage, by simp [hp]⟩

theorem getInputText_of_args (args : List Text) (stdin : os.File) (h : args ≠ []) :
    getInputText args stdin = ((strings.Join args " ".toList, none), stdin) := by
  have : args.length > 0 := List.length_pos.2 h
  simp [getInputText, this]

theorem dropCR_of_not_mem {d : Text} (h : '\r' ∉ d) : bufio.dropCR d = d := by
  unfold bufio.dropCR
  split
  · rename_i hl
    exact absurd (List.mem_of_getLast?_eq_some hl) h
  · rfl

theorem Join_cons_of_ne_nil (e : Text) {es : List Text} (h : es ≠ []) (sep : Text) :
    strings.Join (e :: es) sep = e ++ sep ++ strings.Join es sep := by
  cases es with
  | nil => exact absurd rfl h
  | cons x xs => rw [strings.Join]; simp

theorem scannedLines_ne_nil {c : Text} (h : c ≠ []) : scannedLines c ≠ [] := by
  by_cases hnl : '\n' ∈ c
  · obtain ⟨hsplit, hpre⟩ := split_at_newline hnl
    rw [hsplit, scannedLines_append_cons hpre]
    simp
  · rw [scannedLines_of_not_mem hnl h]
    simp

theorem Join_scannedLines_aux : ∀ (n : Nat) (c : Text), c.length ≤ n → '\r' ∉ c →
    strings.Join (scannedLines c) "\n".toList =
      if c.getLast? = some '\n' then c.dropLast else c := by
  intro n
  induction n with
  | zero =>
    intro c hlen _
    have : c = [] := List.length_eq_zero.1 (Nat.le_zero.1 hlen)
    subst this
    rfl
  | succ n ih =>
    intro c hlen hcr
    by_cases hnl : '\n' ∈ c
    · obtain ⟨hsplit, hpre⟩ := split_at_newline hnl
      generalize c.take (c.indexOf '\n') = pre at hsplit hpre
      generalize c.drop (c.indexOf '\n' + 1) = rest at hsplit
      subst hsplit
      have hcr1 : '\r' ∉ pre := fun h => hcr (List.mem_append_left _ h)
      have hcr2 : '\r' ∉ rest := fun h =>
        hcr (List.mem_append_right _ (List.mem_cons_of_mem _ h))
      rw [scannedLines_append_cons hpre, dropCR_of_not_mem hcr1]
      by_cases hrest : rest = []
      · subst hrest
        simp [scannedLines_nil, strings.Join]
      · have hlen' : rest.length ≤ n := by simp at hlen; omega
        rw [Join_cons_of_ne_nil _ (scannedLines_ne_nil hrest), ih rest hlen' hcr2]
        obtain ⟨x, xs, rfl⟩ := List.exists_cons_of_ne_nil hrest
        have h1 : (pre ++ '\n' :: x :: xs).getLast? = (x :: xs).getLast? := by
          rw [List.getLast?_append_of_ne_nil _ (by simp), List.getLast?_cons_cons]
        have h2 : (pre ++ '\n' :: x :: xs).dropLast = pre ++ '\n' :: (x :: xs).dropLast := by
          simp [List.dropLast_append_cons]
        rw [h1, h2]
        split <;> simp
    · by_cases hne : c = []
      · subst hne; rfl
      · rw [scannedLines_of_not_mem hnl hne, dropCR_of_not_mem hcr]
        have : c.getLast? ≠ some '\n' := fun h => hnl (List.mem_of_getLast?_eq_some h)
        simp [strings.Join, this]

theorem Join_scannedLines (c : Text) (hcr : '\r' ∉ c) :
    strings.Join (scannedLines c) "\n".toList =
      if c.getLast? = some '\n' then c.dropLast else c :=
  Join_scannedLines_aux c.length c (Nat.le_refl _) hcr

theorem not_mem_longLine {c : Char} (h : c ≠ 'a') : c ∉ longLine := by
  intro hm
  exact h (List.eq_of_mem_replicate hm)

theorem hasLongLine_longLine : hasLongLine longLine = true := by
  have h : '\n' ∉ longLine := by
    intro h
    have := List.eq_of_mem_replicate h
    exact absurd this (by decide)
  rw [hasLongLine_of_not_mem h]
  simp [longLine]

theorem isPiped_eq_false_iff (stdin : os.File) :
    isPiped stdin = false ↔ (∃ e, stdin.stat = .error e) ∨ isTerminal stdin = true := by
  unfold isPiped isTerminal
  cases stdin.stat with
  | error e => simp
  | ok mode => simp

theorem getInputText_of_terminal (stdin : os.File) (h : isTerminal stdin = true) :
    getInputText [] stdin = (([], some noInputMessage), stdin) := by
  unfold isTerminal at h
  unfold getInputText
  cases hst : stdin.stat with
  | error e => simp [hst] at h
  | ok mode =>
    simp only [hst, bne_iff_ne, ne_eq] at h
    simp [h]

/-! ## Lemmas on characters -/

theorem isUpper_iff (c : Char) : c.isUpper = true ↔ 65 ≤ c.toNat ∧ c.toNat ≤ 90 := by
  simp only [Char.isUpper, Bool.and_eq_true, decide_eq_true_eq, ge_iff_le, Char.toNat]
  rw [UInt32.le_def, UInt32.le_def]
  rfl

theorem isLower_iff (c : Char) : c.isLower = true ↔ 97 ≤ c.toNat ∧ c.toNat ≤ 122 := by
  simp only [Char.isLower, Bool.and_eq_true, decide_eq_true_eq, ge_iff_le, Char.toNat]
  rw [UInt32.le_def, UInt32.le_def]
  rfl

theorem mem_upper_letters (c : Char) (h : c.isUpper = true) :
    c ∈ "ABCDEFGHIJKLMNOPQRSTUVWXYZ".toList := by
  rw [isUpper_iff] at h
  obtain ⟨h1, h2⟩ := h
  rw [← Char.ofNat_toNat c]
  generalize c.toNat = n at h1 h2
  interval_cases n <;> decide

theorem mem_lower_letters (c : Char) (h : c.isLower = true) :
    c ∈ "abcdefghijklmnopqrstuvwxyz".toList := by
  rw [isLower_iff] at h
  obtain ⟨h1, h2⟩ := h
  rw [← Char.ofNat_toNat c]
  generalize c.toNat = n at h1 h2
  interval_cases n <;> decide

theorem toLower_eq_self (c : Char) (h : c.isUpper = false) : c.toLower = c := by
  have h' : ¬ (65 ≤ c.toNat ∧ c.toNat ≤ 90) := by
    rw [← isUpper_iff]; simp [h]
  unfold Char.toLower
  simp only [ge_iff_le]
  rw [if_neg h']

theorem toUpper_eq_self (c : Char) (h : c.isLower = false) : c.toUpper = c := by
  have h' : ¬ (97 ≤ c.toNat ∧ c.toNat ≤ 122) := by
    rw [← isLower_iff]; simp [h]
  unfold Char.toUpper
  simp only [ge_iff_le]
  rw [if_neg h']

/-- What lower-casing keeps and what it removes. -/
theorem toLower_facts (c : Char) :
    c.toLower.isUpper = false ∧ c.toLower.isAlpha = c.isAlpha ∧ c.toLower.isDigit = c.isDigit ∧
      isSeparator c.toLower = isSeparator c ∧ c.toLower.toLower = c.toLower := by
  cases h : c.isUpper with
  | true =>
    have key : ∀ x ∈ "ABCDEFGHIJKLMNOPQRSTUVWXYZ".toList,
        x.toLower.isUpper = false ∧ x.toLower.isAlpha = x.isAlpha ∧
          x.toLower.isDigit = x.isDigit ∧ isSeparator x.toLower = isSeparator x ∧
          x.toLower.toLower = x.toLower := by decide
    exact key c (mem_upper_letters c h)
  | false =>
    rw [toLower_eq_self c h]
    exact ⟨h, rfl, rfl, rfl, toLower_eq_self c h⟩

/-- What upper-casing keeps and what it removes. -/
theorem toUpper_facts (c : Char) :
    c.toUpper.isLower = false ∧ c.toUpper.isAlpha = c.isAlpha ∧ c.toUpper.isDigit = c.isDigit ∧
      isSeparator c.toUpper = isSeparator c ∧ c.toUpper.toUpper = c.toUpper := by
  cases h : c.isLower with
  | true =>
    have key : ∀ x ∈ "abcdefghijklmnopqrstuvwxyz".toList,
        x.toUpper.isLower = false ∧ x.toUpper.isAlpha = x.isAlpha ∧
          x.toUpper.isDigit = x.isDigit ∧ isSeparator x.toUpper = isSeparator x ∧
          x.toUpper.toUpper = x.toUpper := by decide
    exact key c (mem_lower_letters c h)
  | false =>
    rw [toUpper_eq_self c h]
    exact ⟨h, rfl, rfl, rfl, toUpper_eq_self c h⟩

theorem isLower_of_isSeparator {s : Char} (h : isSeparator s = true) : s.isLower = false := by
  cases hl : s.isLower with
  | false => rfl
  | true =>
    have key : ∀ x ∈ "abcdefghijklmnopqrstuvwxyz".toList, isSeparator x = false := by decide
    rw [key s (mem_lower_letters s hl)] at h
    exact absurd h (by decide)

/-! ## Lemmas on the tokenizer -/

theorem tokenize_sep {s : Char} (h : isSeparator s = true) (rest : Text) :
    tokenize (s :: rest) = tokenize rest := by
  cases rest <;> simp [tokenize, h]

theorem tokenize_single {c : Char} (h : isSeparator c = false) : tokenize [c] = [[c]] := by
  simp [tokenize, h]

theorem tokenize_split {c d : Char} (h : isSeparator c = false) (rest : Text)
    (hb : (isSeparator d || boundary c d rest.head?) = true) :
    tokenize (c :: d :: rest) = [c] :: tokenize (d :: rest) := by
  rw [tokenize]
  simp only [h, Bool.false_eq_true, if_false]
  rw [if_pos hb]

theorem tokenize_glue {c d : Char} (h : isSeparator c = false) (rest : Text)
    (hb : (isSeparator d || boundary c d rest.head?) = false) :
    tokenize (c :: d :: rest) =
      match tokenize (d :: rest) with
      | [] => [[c]]
      | w :: ws => (c :: w) :: ws := by
  rw [tokenize]
  simp only [h, Bool.false_eq_true, if_false]
  rw [if_neg (by simp [hb])]

theorem tokenize_head {d : Char} (h : isSeparator d = false) (rest : Text) :
    ∃ v vs, tokenize (d :: rest) = (d :: v) :: vs := by
  cases rest with
  | nil => exact ⟨[], [], tokenize_single h⟩
  | cons e rest' =>
    cases hb : (isSeparator e || boundary d e rest'.head?) with
    | true => exact ⟨[], _, tokenize_split h rest' hb⟩
    | false =>
      rw [tokenize_glue h rest' hb]
      cases tokenize (e :: rest') with
      | nil => exact ⟨[], [], rfl⟩
      | cons w ws => exact ⟨w, ws, rfl⟩

theorem mixed_of_boundary {c d : Char} {n : Option Char} (h : boundary c d n = false) :
    mixed c d = false := by
  unfold boundary at h
  unfold mixed
  simp only [Bool.or_eq_false_iff] at h ⊢
  exact ⟨h.1.1.2, h.1.2⟩

theorem tokenize_wordlike :
    ∀ (text : Text) (w : Text), w ∈ tokenize text → wordlike w = true := by
  intro text
  induction text with
  | nil => intro w h; simp [tokenize] at h
  | cons c rest ih =>
    intro w hw
    cases hc : isSeparator c with
    | true =>
      rw [tokenize_sep hc] at hw
      exact ih w hw
    | false =>
      cases rest with
      | nil =>
        rw [tokenize_single hc] at hw
        simp only [List.mem_singleton] at hw
        subst hw
        simp [wordlike, hc]
      | cons d rest' =>
        cases hb : (isSeparator d || boundary c d rest'.head?) with
        | true =>
          rw [tokenize_split hc rest' hb] at hw
          rcases List.mem_cons.1 hw with h1 | h1
          · subst h1; simp [wordlike, hc]
          · exact ih w h1
        | false =>
          rw [tokenize_glue hc rest' hb] at hw
          simp only [Bool.or_eq_false_iff] at hb
          obtain ⟨v, vs, hv⟩ := tokenize_head hb.1 rest'
          rw [hv] at hw ih
          simp only [List.mem_cons] at hw
          rcases hw with h1 | h1
          · subst h1
            have h2 : wordlike (d :: v) = true := ih _ (List.mem_cons_self _ _)
            simp [wordlike, hc, mixed_of_boundary hb.2, h2]
          · exact ih w (List.mem_cons_of_mem _ h1)

theorem wordlike_head {c : Char} {w : Text} (h : wordlike (c :: w) = true) :
    isSeparator c = false := by
  cases w with
  | nil => simpa [wordlike] using h
  | cons d w' =>
    simp only [wordlike, Bool.and_eq_true, Bool.not_eq_true'] at h
    exact h.1.1

theorem boundary_next_sep {s : Char} (hs : isSeparator s = true) (c d : Char) :
    boundary c d (some s) = boundary c d none := by
  simp [boundary, isLower_of_isSeparator hs]

/-- A text that is one Word, followed by a separator: the Word, then the Words
of what follows the separator. -/
theorem tokenize_append_sep {s : Char} (hs : isSeparator s = true) (rest : Text) :
    ∀ v : Text, tokenize v = [v] → tokenize (v ++ s :: rest) = v :: tokenize rest := by
  intro v
  induction v with
  | nil => intro h; simp [tokenize] at h
  | cons c v' ih =>
    intro h
    have hwl : wordlike (c :: v') = true :=
      tokenize_wordlike (c :: v') (c :: v') (by rw [h]; exact List.mem_singleton_self _)
    have hc := wordlike_head hwl
    cases v' with
    | nil =>
      have : (isSeparator s || boundary c s rest.head?) = true := by simp [hs]
      rw [List.singleton_append, tokenize_split hc rest this, tokenize_sep hs]
    | cons d v'' =>
      cases hb : (isSeparator d || boundary c d v''.head?) with
      | true =>
        rw [tokenize_split hc v'' hb] at h
        simp at h
      | false =>
        rw [tokenize_glue hc v'' hb] at h
        have hd : tokenize (d :: v'') = [d :: v''] := by
          cases ht : tokenize (d :: v'') with
          | nil => rw [ht] at h; simp at h
          | cons w ws =>
            rw [ht] at h
            simp only [List.cons.injEq, true_and] at h
            rw [h.1, h.2]
        have hb' : (isSeparator d || boundary c d (v'' ++ s :: rest).head?) = false := by
          cases v'' with
          | nil =>
            simp only [List.nil_append, List.head?_cons, boundary_next_sep hs]
            exact hb
          | cons e v3 => exact hb
        have := ih hd
        rw [List.cons_append, List.cons_append, tokenize_glue hc _ hb']
        rw [List.cons_append] at this
        rw [this]

theorem tokenize_Join_sep {s : Char} (hs : isSeparator s = true) :
    ∀ vs : List Text, (∀ v ∈ vs, tokenize v = [v]) → tokenize (strings.Join vs [s]) = vs := by
  intro vs
  induction vs with
  | nil => intro _; rfl
  | cons v vs' ih =>
    intro h
    cases vs' with
    | nil =>
      simp only [strings.Join]
      exact h v (List.mem_cons_self _ _)
    | cons v' vs'' =>
      rw [Join_cons_of_ne_nil _ (by simp), List.append_assoc, List.singleton_append,
        tokenize_append_sep hs _ v (h v (List.mem_cons_self _ _)),
        ih (fun x hx => h x (List.mem_cons_of_mem _ hx))]

theorem lower_lower (w : Text) : lower (lower w) = lower w := by
  simp [lower, List.map_map, (toLower_facts _).2.2.2.2]

theorem upper_upper (w : Text) : upper (upper w) = upper w := by
  simp [upper, List.map_map, (toUpper_facts _).2.2.2.2]

theorem boundary_toLower (c d : Char) (n : Option Char) :
    boundary c.toLower d.toLower n = mixed c d := by
  have hc := toLower_facts c
  have hd := toLower_facts d
  simp [boundary, mixed, hc.1, hd.1, hc.2.1, hd.2.1, hc.2.2.1, hd.2.2.1]

theorem boundary_toUpper (c d : Char) (n : Option Char) (hn : n.any Char.isLower = false) :
    boundary c.toUpper d.toUpper n = mixed c d := by
  have hc := toUpper_facts c
  have hd := toUpper_facts d
  simp [boundary, mixed, hc.1, hd.1, hc.2.1, hd.2.1, hc.2.2.1, hd.2.2.1, hn]

theorem tokenize_lower : ∀ w : Text, wordlike w = true → tokenize (lower w) = [lower w] := by
  intro w
  induction w with
  | nil => intro h; simp [wordlike] at h
  | cons c w' ih =>
    intro h
    have hc : isSeparator c.toLower = false := by
      rw [(toLower_facts c).2.2.2.1]; exact wordlike_head h
    cases w' with
    | nil => exact tokenize_single hc
    | cons d w'' =>
      simp only [wordlike, Bool.and_eq_true, Bool.not_eq_true'] at h
      have hd : isSeparator d.toLower = false := by
        rw [(toLower_facts d).2.2.2.1]; exact wordlike_head h.2
      have hb : (isSeparator d.toLower ||
          boundary c.toLower d.toLower (lower w'').head?) = false := by
        rw [boundary_toLower, hd, h.1.2]; rfl
      have := ih h.2
      simp only [lower, List.map_cons] at this ⊢
      rw [tokenize_glue hc (List.map Char.toLower w'') hb, this]

theorem tokenize_upper : ∀ w : Text, wordlike w = true → tokenize (upper w) = [upper w] := by
  intro w
  induction w with
  | nil => intro h; simp [wordlike] at h
  | cons c w' ih =>
    intro h
    have hc : isSeparator c.toUpper = false := by
      rw [(toUpper_facts c).2.2.2.1]; exact wordlike_head h
    cases w' with
    | nil => exact tokenize_single hc
    | cons d w'' =>
      simp only [wordlike, Bool.and_eq_true, Bool.not_eq_true'] at h
      have hd : isSeparator d.toUpper = false := by
        rw [(toUpper_facts d).2.2.2.1]; exact wordlike_head h.2
      have hn : (upper w'').head?.any Char.isLower = false := by
        cases w'' with
        | nil => rfl
        | cons e w3 => simp [upper, (toUpper_facts e).1]
      have hb : (isSeparator d.toUpper ||
          boundary c.toUpper d.toUpper (upper w'').head?) = false := by
        rw [boundary_toUpper _ _ _ hn, hd, h.1.2]; rfl
      have := ih h.2
      simp only [upper, List.map_cons] at this ⊢
      rw [tokenize_glue hc (List.map Char.toUpper w'') hb, this]

theorem renderWords_map (inits : List Text) (rule : CasingRule) (f : Text → Text)
    (h : ∀ first w, renderWord inits rule first w = f w) (ws : List Text) :
    renderWords inits rule ws = ws.map f := by
  cases ws with
  | nil => rfl
  | cons w ws' => simp [renderWords, h]

/-- Converting twice with a rule that re-cases every Word by an idempotent `f`
that keeps Words Words, and joins them with a separator character. -/
theorem convert_idem_of (inits : List Text) (rule : CasingRule) (f : Text → Text) (s : Char)
    (hs : isSeparator s = true) (hsep : separator rule = [s])
    (hr : ∀ first w, renderWord inits rule first w = f w)
    (hf : ∀ w, f (f w) = f w) (ht : ∀ w, wordlike w = true → tokenize (f w) = [f w])
    (text : Text) :
    convert inits (convert inits text rule) rule = convert inits text rule := by
  unfold convert
  rw [hsep, renderWords_map inits rule f hr, renderWords_map inits rule f hr]
  rw [tokenize_Join_sep hs]
  · rw [List.map_map]
    congr 1
    apply List.map_congr_left
    intro w _
    exact hf w
  · intro v hv
    obtain ⟨w, hw, rfl⟩ := List.mem_map.1 hv
    exact ht w (tokenize_wordlike text w hw)

theorem lower_letter_facts (c : Char) (h : c.isLower = true) :
    c.isUpper = false ∧ c.isDigit = false ∧ isSeparator c = false ∧ c.isAlpha = true := by
  have key : ∀ x ∈ "abcdefghijklmnopqrstuvwxyz".toList,
      x.isUpper = false ∧ x.isDigit = false ∧ isSeparator x = false ∧ x.isAlpha = true := by
    decide
  exact key c (mem_lower_letters c h)

theorem lower_of_all_isLower : ∀ w : Text, w.all Char.isLower = true → lower w = w := by
  intro w
  induction w with
  | nil => intro _; rfl
  | cons c w' ih =>
    intro h
    simp only [List.all_cons, Bool.and_eq_true] at h
    simp only [lower, List.map_cons]
    rw [toLower_eq_self c (lower_letter_facts c h.1).1]
    congr 1
    exact ih h.2

theorem wordlike_of_all_isLower : ∀ w : Text, w ≠ [] → w.all Char.isLower = true →
    wordlike w = true := by
  intro w
  induction w with
  | nil => intro h; exact absurd rfl h
  | cons c w' ih =>
    intro _ h
    simp only [List.all_cons, Bool.and_eq_true] at h
    have hc := lower_letter_facts c h.1
    cases w' with
    | nil => simp [wordlike, hc.2.2.1]
    | cons d w'' =>
      have hd : d.isLower = true := by
        have := h.2
        simp only [List.all_cons, Bool.and_eq_true] at this
        exact this.1
      have hd' := lower_letter_facts d hd
      have := ih (by simp) h.2
      simp [wordlike, mixed, hc.2.2.1, hc.2.1, hd'.2.1, this]

theorem tokenize_lowerWord (w : Text) (h : isLowerWord w = true) : tokenize w = [w] := by
  simp only [isLowerWord, Bool.and_eq_true, Bool.not_eq_true', List.isEmpty_eq_false] at h
  have := tokenize_lower w (wordlike_of_all_isLower w h.1 h.2)
  rwa [lower_of_all_isLower w h.2] at this

theorem capitalize_lowerWord (w : Text) (h : isLowerWord w = true) :
    capitalize w = upperFirst w := by
  simp only [isLowerWord, Bool.and_eq_true] at h
  cases w with
  | nil => rfl
  | cons c cs =>
    have := h.2
    simp only [List.all_cons, Bool.and_eq_true] at this
    simp [capitalize, upperFirst, lower_of_all_isLower cs this.2]

theorem lower_lowerWord (w : Text) (h : isLowerWord w = true) : lower w = w := by
  simp only [isLowerWord, Bool.and_eq_true] at h
  exact lower_of_all_isLower w h.2

theorem Join_nil_sep (xs : List Text) : strings.Join xs [] = xs.flatten := by
  induction xs with
  | nil => rfl
  | cons x xs' ih =>
    cases xs' with
    | nil => simp [strings.Join]
    | cons y ys =>
      rw [Join_cons_of_ne_nil _ (by simp), ih]
      simp

theorem isInitialism_iff (inits : List Text) (w : Text) :
    isInitialism inits w = true ↔ lower w ∈ inits := by
  simp [isInitialism]

/-! ## Lemmas on the commands -/

theorem runWith_ok (conv : Text → Text) (args : List Text) (w : World) (text : Text)
    (stdin' : os.File) (h : getInputText args w.stdin = ((text, none), stdin')) :
    runWith conv args w =
      (none, { stdin := stdin', stdout := w.stdout ++ conv text ++ "\n".toList }) := by
  simp [runWith, h, fmt.Println]

theorem runWith_error (conv : Text → Text) (args : List Text) (w : World) (text : Text)
    (err : GoError) (stdin' : os.File)
    (h : getInputText args w.stdin = ((text, some err), stdin')) :
    runWith conv args w = (some err, { stdin := stdin', stdout := w.stdout }) := by
  simp [runWith, h]

theorem commands_eq (strcase : Strcase) :
    (init strcase rootCmd).commands =
      [camelCmd strcase, goCamelCmd strcase, pascalCmd strcase, goPascalCmd strcase,
        snakeCmd strcase, upperSnakeCmd strcase, kebabCmd strcase, upperKebabCmd strcase] := rfl

theorem command_names (strcase : Strcase) :
    (init strcase rootCmd).commands.map cobra.Command.Name =
      ["camel".toList, "gocamel".toList, "pascal".toList, "gopascal".toList, "snake".toList,
        "uppersnake".toList, "kebab".toList, "upperkebab".toList] := rfl

theorem mem_commands (strcase : Strcase) (c : cobra.Command)
    (hc : c ∈ (init strcase rootCmd).commands) :
    (∃ conv, c.RunE = some (runWith conv)) ∧
      (init strcase rootCmd).commands.filter (fun sub => sub.Name = c.Name) = [c] ∧
      c.Name.head? ≠ some '-' := by
  have hname : c.Name.head? ≠ some '-' := by
    have hmem : c.Name ∈ (init strcase rootCmd).commands.map cobra.Command.Name :=
      List.mem_map_of_mem _ hc
    rw [command_names] at hmem
    have key : ∀ n ∈ ["camel".toList, "gocamel".toList, "pascal".toList, "gopascal".toList,
        "snake".toList, "uppersnake".toList, "kebab".toList, "upperkebab".toList],
        n.head? ≠ some '-' := by decide
    exact key _ hmem
  rw [commands_eq] at hc ⊢
  simp only [List.mem_cons, List.mem_singleton, List.not_mem_nil, or_false] at hc
  refine ⟨?_, ?_, hname⟩
  · rcases hc with rfl | rfl | rfl | rfl | rfl | rfl | rfl | rfl
    · exact ⟨strcase.ToCamel, rfl⟩
    · exact ⟨strcase.ToGoCamel, rfl⟩
    · exact ⟨strcase.ToPascal, rfl⟩
    · exact ⟨strcase.ToGoPascal, rfl⟩
    · exact ⟨strcase.ToSnake, rfl⟩
    · exact ⟨strcase.ToSNAKE, rfl⟩
    · exact ⟨strcase.ToKebab, rfl⟩
    · exact ⟨strcase.ToKEBAB, rfl⟩
  · rcases hc with rfl | rfl | rfl | rfl | rfl | rfl | rfl | rfl <;> rfl

theorem Execute_of_run (strcase : Strcase) (c : cobra.Command)
    (hc : c ∈ (init strcase rootCmd).commands) (run : List Text → World → Option GoError × World)
    (hrun : c.RunE = some run) (args : List Text) (hargs : ∀ a ∈ args, a.head? ≠ some '-')
    (w : World) :
    Execute strcase (c.Name :: args) w =
      match run args w with
      | (some _, w') => some (some 1, w')
      | (none, w') => some (none, w') := by
  obtain ⟨_, hfilter, hname⟩ := mem_commands strcase c hc
  have hany : (c.Name :: args).any (fun a => a.head? = some '-') = false := by
    simp only [List.any_cons, Bool.or_eq_false_iff, decide_eq_false_iff_not]
    refine ⟨hname, ?_⟩
    rw [List.any_eq_false]
    intro a ha
    simpa using hargs a ha
  unfold Execute cobra.Command.Execute
  simp only [hany, Bool.false_eq_true, if_false, hfilter, hrun]
  rcases run args w with ⟨_ | e, w'⟩ <;> rfl

theorem getInputText_piped_text (T : Text) (hn : '\n' ∉ T) (hr : '\r' ∉ T)
    (hlen : T.length < bufio.MaxScanTokenSize) (stdin : os.File) (hp : isPiped stdin = true)
    (he : stdin.readErr = none) (hd : stdin.data = T ∨ stdin.data = T ++ "\n".toList) :
    getInputText [] stdin = ((T, none), { stdin with data := [] }) := by
  have hshort : hasLongLine stdin.data = false := by
    rcases hd with hd | hd
    · rw [hd, hasLongLine_of_not_mem hn]
      simpa using hlen
    · rw [hd]
      show hasLongLine (T ++ '\n' :: []) = false
      rw [hasLongLine_append_cons hn, hasLongLine_nil]
      simpa using hlen
  have hcr : '\r' ∉ stdin.data := by
    rcases hd with hd | hd
    · rw [hd]; exact hr
    · rw [hd]
      intro h
      rcases List.mem_append.1 h with h | h
      · exact hr h
      · simp at h
  have hjoin : strings.Join (scannedLines stdin.data) "\n".toList = T := by
    rw [Join_scannedLines _ hcr]
    rcases hd with hd | hd
    · rw [hd]
      have : T.getLast? ≠ some '\n' := fun h => hn (List.mem_of_getLast?_eq_some h)
      simp [this]
    · rw [hd]
      simp
  rw [getInputText_piped_short stdin hp hshort, he, hjoin]

/-! ## The claims -/

/-- C1: for every non-empty argument list `getInputText` returns the arguments
joined with a single space and no error, whatever standard input is, and leaves
standard input as it was. -/
theorem getInputText_args_joined (args : List Text) (stdin : os.File) (h : args ≠ []) :
    getInputText args stdin = ((strings.Join args " ".toList, none), stdin) ∧
      strings.Join args " ".toList = " ".toList.intercalate args :=
  ⟨getInputText_of_args args stdin h, Join_eq_intercalate args _⟩

/-- Witness of C1: the arguments "hello" and "world", and the one argument
"hello world", both resolve to "hello world", at a terminal and beside a pipe
that is left unread. -/
theorem getInputText_args_joined_witness :
    (["hello".toList, "world".toList] ≠ [] ∧
      (getInputText ["hello".toList, "world".toList] terminal =
          (("hello world".toList, none), terminal) ∧
        "hello world".toList = " ".toList.intercalate ["hello".toList, "world".toList])) ∧
    (["hello world".toList] ≠ [] ∧
      (getInputText ["hello world".toList] (pipeOf "ignored".toList) =
          (("hello world".toList, none), pipeOf "ignored".toList) ∧
        "hello world".toList = " ".toList.intercalate ["hello world".toList])) :=
  ⟨⟨by decide, getInputText_args_joined ["hello".toList, "world".toList] terminal (by decide)⟩,
   ⟨by decide, getInputText_args_joined ["hello world".toList] (pipeOf "ignored".toList)
      (by decide)⟩⟩

/-- C2, as stated, fails: with no arguments and a pipe on standard input that
holds one line of `bufio.MaxScanTokenSize` bytes, `getInputText` returns the
scanner's error `ErrTooLong`. -/
theorem getInputText_piped_longLine_fails :
    isPiped (pipeOf longLine) = true ∧
      (getInputText [] (pipeOf longLine)).1 = ([], some bufio.ErrTooLong) :=
  ⟨by decide, getInputText_piped_long _ (by decide) hasLongLine_longLine⟩

/-- C2, amended: `getInputText` returns an error exactly when no argument is
given and `Stat` on standard input fails, or standard input is a terminal, or
it is not a terminal and one of its lines has `bufio.MaxScanTokenSize` bytes or
more or reading it ends in an error other than end of file. -/
theorem getInputText_error_iff (args : List Text) (stdin : os.File) :
    (getInputText args stdin).1.2 ≠ none ↔
      args = [] ∧ ((∃ e, stdin.stat = .error e) ∨ isTerminal stdin = true ∨
        (isPiped stdin = true ∧ (hasLongLine stdin.data = true ∨ stdin.readErr ≠ none))) := by
  by_cases hargs : args = []
  · subst hargs
    cases hp : isPiped stdin with
    | false =>
      obtain ⟨err, herr⟩ := getInputText_not_piped stdin hp
      have := (isPiped_eq_false_iff stdin).1 hp
      simp only [herr, ne_eq, reduceCtorEq, not_false_eq_true, true_and, Bool.false_eq_true,
        false_and, or_false, true_iff]
      exact this
    | true =>
      have hne : ¬ ((∃ e, stdin.stat = .error e) ∨ isTerminal stdin = true) := by
        intro h
        rw [(isPiped_eq_false_iff stdin).2 h] at hp
        exact absurd hp (by decide)
      cases hl : hasLongLine stdin.data with
      | true =>
        rw [getInputText_piped_long stdin hp hl]
        simp
      | false =>
        rw [getInputText_piped_short stdin hp hl]
        cases hr : stdin.readErr with
        | none => simpa using hne
        | some e => simp
  · rw [getInputText_of_args args stdin hargs]
    simp [hargs]

/-- C3: with no arguments and a terminal on standard input (`Stat` answers a mode
with the character-device bit set) `getInputText` returns the empty string and
an error whose message starts with "no input provided", and standard input is
left as it was. -/
theorem getInputText_terminal_fails (stdin : os.File) (h : isTerminal stdin = true) :
    getInputText [] stdin = (([], some noInputMessage), stdin) ∧
      "no input provided".toList <+: noInputMessage :=
  ⟨getInputText_of_terminal stdin h, by decide⟩

/-- Witness of C3: no arguments at a terminal. -/
theorem getInputText_terminal_fails_witness :
    isTerminal terminal = true ∧
      (getInputText [] terminal = (([], some noInputMessage), terminal) ∧
        "no input provided".toList <+: noInputMessage) :=
  ⟨by decide, getInputText_terminal_fails terminal (by decide)⟩

/-- C4, as stated, fails: for the piped content "a\r" the specification's lines
rejoin to "a\r", the last segment having no newline after it, while
`getInputText` returns "a"; and for a piped line of `bufio.MaxScanTokenSize`
bytes `getInputText` returns no lines but the error `ErrTooLong`. -/
theorem getInputText_final_carriage_return :
    ((getInputText [] (pipeOf "a\r".toList)).1 = ("a".toList, none) ∧
      strings.Join (specLines "a\r".toList) "\n".toList = "a\r".toList ∧
      (getInputText [] (pipeOf "a\r".toList)).1.1 ≠
        strings.Join (specLines "a\r".toList) "\n".toList) ∧
    (getInputText [] (pipeOf (longLine ++ "\n".toList))).1 = ([], some bufio.ErrTooLong) :=
  ⟨⟨by rfl, by rfl, by decide⟩,
    getInputText_piped_long _ (by decide) (by
      show hasLongLine (longLine ++ '\n' :: []) = true
      rw [hasLongLine_append_cons (not_mem_longLine (by decide))]
      simp [longLine])⟩

/-- C4, amended: with no arguments and a standard input that is not a terminal,
has no line of `bufio.MaxScanTokenSize` bytes or more and ends in a plain end
of file, `getInputText` reads all of it and returns, with no error, its lines
rejoined with a newline, where the lines are the segments a newline ends and
the last segment when it is not empty, each without one terminal carriage
return.  When the content has no carriage return the result is the content
without one terminal newline; for the empty content it is the empty string. -/
theorem getInputText_piped_lines (stdin : os.File) (hp : isPiped stdin = true)
    (hs : hasLongLine stdin.data = false) (he : stdin.readErr = none) :
    getInputText [] stdin =
        ((strings.Join (scannedLines stdin.data) "\n".toList, none),
          { stdin with data := [] }) ∧
      ('\r' ∉ stdin.data →
        strings.Join (scannedLines stdin.data) "\n".toList =
          if stdin.data.getLast? = some '\n' then stdin.data.dropLast else stdin.data) ∧
      (stdin.data = [] → (getInputText [] stdin).1 = ([], none)) := by
  have h : getInputText [] stdin =
      ((strings.Join (scannedLines stdin.data) "\n".toList, none),
        { stdin with data := [] }) := by
    rw [getInputText_piped_short stdin hp hs]
    simp [he]
  refine ⟨h, Join_scannedLines _, fun hd => ?_⟩
  rw [h, hd]
  rfl

/-- Witness of C4, amended: the piped content "a\r\nb\n\nc\n" resolves to
"a\nb\n\nc". -/
theorem getInputText_piped_lines_witness :
    isPiped (pipeOf "a\r\nb\n\nc\n".toList) = true ∧
      hasLongLine (pipeOf "a\r\nb\n\nc\n".toList).data = false ∧
      (pipeOf "a\r\nb\n\nc\n".toList).readErr = none ∧
      (getInputText [] (pipeOf "a\r\nb\n\nc\n".toList)).1 = ("a\nb\n\nc".toList, none) :=
  ⟨by decide, by decide, rfl,
    congrArg Prod.fst (getInputText_piped_lines (pipeOf "a\r\nb\n\nc\n".toList)
      (by decide) (by decide) rfl).1⟩

/-- C5: the root command has exactly the eight subcommands camel, gocamel,
pascal, gopascal, snake, uppersnake, kebab and upperkebab, and when
`getInputText` resolves the text `T`, each of them returns no error and writes
to standard output the result of its own converter on `T` and a newline:
`ToCamel`, `ToGoCamel`, `ToPascal`, `ToGoPascal`, `ToSnake`, `ToSNAKE`,
`ToKebab`, `ToKEBAB` in that order, whatever the converters are. -/
theorem commands_run_own_converter (strcase : Strcase) (args : List Text) (w : World)
    (T : Text) (stdin' : os.File) (h : getInputText args w.stdin = ((T, none), stdin')) :
    (init strcase rootCmd).commands.map
        (fun c => (c.Name, c.RunE.map (fun run => run args w))) =
      [("camel".toList, some (none,
          { stdin := stdin', stdout := w.stdout ++ strcase.ToCamel T ++ "\n".toList })),
        ("gocamel".toList, some (none,
          { stdin := stdin', stdout := w.stdout ++ strcase.ToGoCamel T ++ "\n".toList })),
        ("pascal".toList, some (none,
          { stdin := stdin', stdout := w.stdout ++ strcase.ToPascal T ++ "\n".toList })),
        ("gopascal".toList, some (none,
          { stdin := stdin', stdout := w.stdout ++ strcase.ToGoPascal T ++ "\n".toList })),
        ("snake".toList, some (none,
          { stdin := stdin', stdout := w.stdout ++ strcase.ToSnake T ++ "\n".toList })),
        ("uppersnake".toList, some (none,
          { stdin := stdin', stdout := w.stdout ++ strcase.ToSNAKE T ++ "\n".toList })),
        ("kebab".toList, some (none,
          { stdin := stdin', stdout := w.stdout ++ strcase.ToKebab T ++ "\n".toList })),
        ("upperkebab".toList, some (none,
          { stdin := stdin', stdout := w.stdout ++ strcase.ToKEBAB T ++ "\n".toList }))] := by
  rw [commands_eq]
  simp only [List.map_cons, List.map_nil]
  have hn : ∀ conv, runWith conv args w =
      (none, { stdin := stdin', stdout := w.stdout ++ conv T ++ "\n".toList }) :=
    fun conv => runWith_ok conv args w T stdin' h
  have hc : ∀ (c : cobra.Command) (conv : Text → Text), c.RunE = some (runWith conv) →
      c.RunE.map (fun run => run args w) =
        some (none, { stdin := stdin', stdout := w.stdout ++ conv T ++ "\n".toList }) := by
    intro c conv hrun
    rw [hrun, Option.map_some', hn]
  rw [hc _ strcase.ToCamel rfl, hc _ strcase.ToGoCamel rfl, hc _ strcase.ToPascal rfl,
    hc _ strcase.ToGoPascal rfl, hc _ strcase.ToSnake rfl, hc _ strcase.ToSNAKE rfl,
    hc _ strcase.ToKebab rfl, hc _ strcase.ToKEBAB rfl]
  rfl

/-- Witness of C5: the eight commands on the argument "hello world", with the
converters of the specification. -/
theorem commands_run_own_converter_witness :
    getInputText ["hello world".toList] (World.mk terminal []).stdin =
        (("hello world".toList, none), terminal) ∧
      (init (specStrcase listedInitialisms) rootCmd).commands.map
          (fun c => (c.Name, c.RunE.map
            (fun run => (run ["hello world".toList] (World.mk terminal [])).2.stdout))) =
        [("camel".toList, some "helloWorld\n".toList),
          ("gocamel".toList, some "helloWorld\n".toList),
          ("pascal".toList, some "HelloWorld\n".toList),
          ("gopascal".toList, some "HelloWorld\n".toList),
          ("snake".toList, some "hello_world\n".toList),
          ("uppersnake".toList, some "HELLO_WORLD\n".toList),
          ("kebab".toList, some "hello-world\n".toList),
          ("upperkebab".toList, some "HELLO-WORLD\n".toList)] :=
  ⟨rfl, by
    have h := commands_run_own_converter (specStrcase listedInitialisms)
      ["hello world".toList] (World.mk terminal []) "hello world".toList terminal rfl
    have h2 := congrArg (List.map (fun p : Text × Option (Option GoError × World) =>
      (p.1, p.2.map (fun r => r.2.stdout)))) h
    simpa [List.map_map, Function.comp_def] using h2⟩

/-- C6, as stated, fails: the text of `bufio.MaxScanTokenSize` letters `a` has
no newline and no carriage return; passed as one argument it is resolved, piped
on standard input it is not: `getInputText` returns the error `ErrTooLong`. -/
theorem piped_longLine_not_resolved :
    '\n' ∉ longLine ∧ '\r' ∉ longLine ∧
      (getInputText [longLine] terminal).1 = (longLine, none) ∧
      (getInputText [] (pipeOf longLine)).1 = ([], some bufio.ErrTooLong) :=
  ⟨not_mem_longLine (by decide), not_mem_longLine (by decide),
    congrArg Prod.fst (getInputText_of_args [longLine] terminal (by simp)),
    getInputText_piped_long _ (by decide) hasLongLine_longLine⟩

/-- C6, amended: for every text `T` with no newline, no carriage return and
fewer than `bufio.MaxScanTokenSize` bytes, a subcommand run with no arguments
on a standard input that is not a terminal, holds `T` or `T` and one newline,
and ends in a plain end of file, resolves the same text as the subcommand run
with `T` as its one argument, returns no error as that one does, and writes
the same output. -/
theorem piped_resolves_as_argument (strcase : Strcase) (c : cobra.Command)
    (hc : c ∈ (init strcase rootCmd).commands) (T : Text) (hn : '\n' ∉ T) (hr : '\r' ∉ T)
    (hlen : T.length < bufio.MaxScanTokenSize) (stdin : os.File) (hp : isPiped stdin = true)
    (he : stdin.readErr = none) (hd : stdin.data = T ∨ stdin.data = T ++ "\n".toList)
    (stdin2 : os.File) (out : Text) :
    (getInputText [] stdin).1 = (T, none) ∧ (getInputText [T] stdin2).1 = (T, none) ∧
      ∃ run, c.RunE = some run ∧
        (run [] { stdin := stdin, stdout := out }).1 = none ∧
        (run [T] { stdin := stdin2, stdout := out }).1 = none ∧
        (run [] { stdin := stdin, stdout := out }).2.stdout =
          (run [T] { stdin := stdin2, stdout := out }).2.stdout := by
  have h1 := getInputText_piped_text T hn hr hlen stdin hp he hd
  have h2 : getInputText [T] stdin2 = ((T, none), stdin2) :=
    getInputText_of_args [T] stdin2 (by simp)
  obtain ⟨⟨conv, hconv⟩, _, _⟩ := mem_commands strcase c hc
  refine ⟨congrArg Prod.fst h1, congrArg Prod.fst h2, runWith conv, hconv, ?_, ?_, ?_⟩
  · rw [runWith_ok conv [] ⟨stdin, out⟩ T _ h1]
  · rw [runWith_ok conv [T] ⟨stdin2, out⟩ T _ h2]
  · rw [runWith_ok conv [] ⟨stdin, out⟩ T _ h1, runWith_ok conv [T] ⟨stdin2, out⟩ T _ h2]

/-- Witness of C6, amended: "hello world" and a newline piped to `pascal`, and
`pascal` with the argument "hello world". -/
theorem piped_resolves_as_argument_witness :
    pascalCmd (specStrcase listedInitialisms) ∈
        (init (specStrcase listedInitialisms) rootCmd).commands ∧
      '\n' ∉ "hello world".toList ∧ '\r' ∉ "hello world".toList ∧
      "hello world".toList.length < bufio.MaxScanTokenSize ∧
      isPiped (pipeOf "hello world\n".toList) = true ∧
      (pipeOf "hello world\n".toList).readErr = none ∧
      ((pipeOf "hello world\n".toList).data = "hello world".toList ∨
        (pipeOf "hello world\n".toList).data = "hello world".toList ++ "\n".toList) ∧
      (getInputText [] (pipeOf "hello world\n".toList)).1 = ("hello world".toList, none) ∧
      (getInputText ["hello world".toList] terminal).1 = ("hello world".toList, none) ∧
      ∃ run, (pascalCmd (specStrcase listedInitialisms)).RunE = some run ∧
        (run [] { stdin := pipeOf "hello world\n".toList, stdout := [] }).1 = none ∧
        (run ["hello world".toList] { stdin := terminal, stdout := [] }).1 = none ∧
        (run [] { stdin := pipeOf "hello world\n".toList, stdout := [] }).2.stdout =
          (run ["hello world".toList] { stdin := terminal, stdout := [] }).2.stdout ∧
        (run ["hello world".toList] { stdin := terminal, stdout := [] }).2.stdout =
          "HelloWorld\n".toList := by
  obtain ⟨h1, h2, run, hrun, h3, h4, h5⟩ :=
    piped_resolves_as_argument (specStrcase listedInitialisms)
      (pascalCmd (specStrcase listedInitialisms)) (by simp [commands_eq])
      "hello world".toList (by decide) (by decide) (by decide)
      (pipeOf "hello world\n".toList) (by decide) rfl (Or.inr rfl) terminal []
  refine ⟨by simp [commands_eq], by decide, by decide, by decide, by decide, rfl, Or.inr rfl,
    h1, h2, run, hrun, h3, h4, h5, ?_⟩
  cases hrun
  rfl

/-- C7: for every subcommand, when `getInputText` fails the handler returns that
error and leaves standard output as it was, whatever the converters are, and
`Execute` ends the process with status 1; when `getInputText` succeeds the
handler returns no error and `Execute` returns without calling `os.Exit`. -/
theorem handler_error_exit (strcase : Strcase) (c : cobra.Command)
    (hc : c ∈ (init strcase rootCmd).commands) (args : List Text) (w : World) :
    ∃ run, c.RunE = some run ∧
      (∀ text err stdin', getInputText args w.stdin = ((text, some err), stdin') →
        run args w = (some err, { stdin := stdin', stdout := w.stdout }) ∧
          Execute strcase (c.Name :: args) w =
            some (some 1, { stdin := stdin', stdout := w.stdout })) ∧
      (∀ text stdin', getInputText args w.stdin = ((text, none), stdin') →
        (run args w).1 = none ∧
          ((∀ a ∈ args, a.head? ≠ some '-') →
            Execute strcase (c.Name :: args) w = some (none, (run args w).2))) := by
  obtain ⟨⟨conv, hconv⟩, _, _⟩ := mem_commands strcase c hc
  refine ⟨runWith conv, hconv, fun text err stdin' h => ?_, fun text stdin' h => ?_⟩
  · have hargs : args = [] := by
      by_contra hne
      rw [getInputText_of_args args w.stdin hne] at h
      simp at h
    have hex := Execute_of_run strcase c hc (runWith conv) hconv args (by simp [hargs]) w
    have hr := runWith_error conv args w text err stdin' h
    rw [hr] at hex
    exact ⟨hr, hex⟩
  · have hr := runWith_ok conv args w text stdin' h
    refine ⟨by rw [hr], fun hargs => ?_⟩
    have hex := Execute_of_run strcase c hc (runWith conv) hconv args hargs w
    rw [hr] at hex
    rw [hr]
    exact hex

/-- Witness of C7: `camel` with no arguments at a terminal returns the error
of `getInputText`, writes nothing, and `Execute` exits with status 1; `camel`
with the argument "hello world" returns no error and `Execute` returns. -/
theorem handler_error_exit_witness :
    camelCmd (specStrcase listedInitialisms) ∈
        (init (specStrcase listedInitialisms) rootCmd).commands ∧
      (∃ run, (camelCmd (specStrcase listedInitialisms)).RunE = some run ∧
        run [] (World.mk terminal []) = (some noInputMessage, World.mk terminal []) ∧
        Execute (specStrcase listedInitialisms) ["camel".toList] (World.mk terminal []) =
          some (some 1, World.mk terminal [])) ∧
      (∃ run, (camelCmd (specStrcase listedInitialisms)).RunE = some run ∧
        (run ["hello world".toList] (World.mk terminal [])).1 = none ∧
        Execute (specStrcase listedInitialisms) ["camel".toList, "hello world".toList]
            (World.mk terminal []) =
          some (none, World.mk terminal "helloWorld\n".toList)) := by
  refine ⟨by simp [commands_eq], ?_, ?_⟩
  · obtain ⟨run, hrun, hfail, _⟩ :=
      handler_error_exit (specStrcase listedInitialisms)
        (camelCmd (specStrcase listedInitialisms)) (by simp [commands_eq]) []
        (World.mk terminal [])
    exact ⟨run, hrun, hfail [] noInputMessage terminal rfl⟩
  · obtain ⟨run, hrun, _, hok⟩ :=
      handler_error_exit (specStrcase listedInitialisms)
        (camelCmd (specStrcase listedInitialisms)) (by simp [commands_eq])
        ["hello world".toList] (World.mk terminal [])
    have h := hok "hello world".toList terminal rfl
    refine ⟨run, hrun, h.1, ?_⟩
    rw [show (["camel".toList, "hello world".toList] : List Text) =
      (camelCmd (specStrcase listedInitialisms)).Name :: ["hello world".toList] from rfl,
      h.2 (by decide)]
    cases hrun
    rfl

/-- C8, as stated, fails: converting "a b c" twice with the camel, the pascal or
a Go-flavored rule does not give what converting it once gives; the Words "B"
and "C" of the first conversion are one Word "BC" of the second. -/
theorem convert_capitalizing_not_idempotent :
    (convert listedInitialisms "a b c".toList .pascal = "ABC".toList ∧
      convert listedInitialisms "ABC".toList .pascal = "Abc".toList) ∧
    (convert listedInitialisms "a b c".toList .camel = "aBC".toList ∧
      convert listedInitialisms "aBC".toList .camel = "aBc".toList) ∧
    (convert listedInitialisms "a b c".toList .goPascal = "ABC".toList ∧
      convert listedInitialisms "ABC".toList .goPascal = "Abc".toList) ∧
    (convert listedInitialisms "a b c".toList .goCamel = "aBC".toList ∧
      convert listedInitialisms "aBC".toList .goCamel = "aBc".toList) ∧
    convert listedInitialisms (convert listedInitialisms "a b c".toList .pascal) .pascal ≠
      convert listedInitialisms "a b c".toList .pascal := by
  refine ⟨⟨by rfl, by rfl⟩, ⟨by rfl, by rfl⟩, ⟨by rfl, by rfl⟩, ⟨by rfl, by rfl⟩, by decide⟩

/-- C8, amended: the snake, upper-snake, kebab and upper-kebab rules are
idempotent, for every text and every set of initialisms:
`convert(convert(T, R), R) = convert(T, R)` for these four rules `R`. -/
theorem convert_delimited_idempotent (inits : List Text) (text : Text) :
    convert inits (convert inits text .snake) .snake = convert inits text .snake ∧
    convert inits (convert inits text .upperSnake) .upperSnake =
      convert inits text .upperSnake ∧
    convert inits (convert inits text .kebab) .kebab = convert inits text .kebab ∧
    convert inits (convert inits text .upperKebab) .upperKebab =
      convert inits text .upperKebab :=
  ⟨convert_idem_of inits .snake lower '_' (by decide) rfl (fun _ _ => rfl) lower_lower
      tokenize_lower text,
    convert_idem_of inits .upperSnake upper '_' (by decide) rfl (fun _ _ => rfl) upper_upper
      tokenize_upper text,
    convert_idem_of inits .kebab lower '-' (by decide) rfl (fun _ _ => rfl) lower_lower
      tokenize_lower text,
    convert_idem_of inits .upperKebab upper '-' (by decide) rfl (fun _ _ => rfl) upper_upper
      tokenize_upper text⟩

/-- C9, as stated, fails: "id" is the first Word of "id of url" and its
lower-cased form is a listed initialism, but the Go-flavored camel rule renders
it lower-case: the text converts to "idOfURL", not to "IDOfURL". -/
theorem convert_goCamel_first_initialism :
    tokenize "id of url".toList = ["id".toList, "of".toList, "url".toList] ∧
      lower "id".toList ∈ listedInitialisms ∧
      convert listedInitialisms "id of url".toList .goCamel = "idOfURL".toList ∧
      convert listedInitialisms "id of url".toList .goCamel ≠
        upper "id".toList ++ "OfURL".toList := by
  refine ⟨by rfl, by decide, by rfl, by decide⟩

/-- C9, amended: for every text and every set of initialisms, the Go-flavored
pascal rule renders every Word whose lower-cased form is an initialism fully
upper-case and every other Word capitalized-first, as the pascal rule does; the
Go-flavored camel rule renders the first Word lower-case, as the camel rule
does, whether it is an initialism or not, every later Word that is an
initialism fully upper-case and every other later Word capitalized-first, as
the camel rule does.  The converted text is these renderings in the order of
the Words, with no separator, so that an initialism at any place under the
Go-flavored pascal rule, and at any place after the first under the
Go-flavored camel rule, stands fully upper-case in the converted text; where
no Word (no Word after the first, for camel) is an initialism, the Go-flavored
rule gives what the plain rule gives. -/
theorem convert_go_rules (inits : List Text) (text : Text) :
    convert inits text .goPascal =
        ((tokenize text).map
          (fun w => if lower w ∈ inits then upper w else capitalize w)).flatten ∧
      convert inits text .pascal = ((tokenize text).map capitalize).flatten ∧
      convert inits text .goCamel =
        (match tokenize text with
          | [] => []
          | w :: ws =>
            lower w ++
              (ws.map (fun v => if lower v ∈ inits then upper v else capitalize v)).flatten) ∧
      convert inits text .camel =
        (match tokenize text with
          | [] => []
          | w :: ws => lower w ++ (ws.map capitalize).flatten) ∧
      (∀ pre w post, tokenize text = pre ++ w :: post → lower w ∈ inits →
        convert inits text .goPascal =
          (pre.map (fun v => if lower v ∈ inits then upper v else capitalize v)).flatten ++
            upper w ++
            (post.map (fun v => if lower v ∈ inits then upper v else capitalize v)).flatten) ∧
      (∀ p pre w post, tokenize text = p :: (pre ++ w :: post) → lower w ∈ inits →
        convert inits text .goCamel =
          lower p ++
            (pre.map (fun v => if lower v ∈ inits then upper v else capitalize v)).flatten ++
            upper w ++
            (post.map (fun v => if lower v ∈ inits then upper v else capitalize v)).flatten) ∧
      ((∀ w ∈ tokenize text, lower w ∉ inits) →
        convert inits text .goPascal = convert inits text .pascal) ∧
      ((∀ w ∈ (tokenize text).tail, lower w ∉ inits) →
        convert inits text .goCamel = convert inits text .camel) := by
  have hgo : ∀ first (w : Text), renderWord inits .goPascal first w =
      if lower w ∈ inits then upper w else capitalize w := by
    intro first w
    by_cases h : lower w ∈ inits
    · simp [renderWord, (isInitialism_iff inits w).2 h, h]
    · have : isInitialism inits w = false := by
        cases hi : isInitialism inits w with
        | false => rfl
        | true => exact absurd ((isInitialism_iff inits w).1 hi) h
      simp [renderWord, this, h]
  have hgc : ∀ (w : Text), renderWord inits .goCamel false w =
      if lower w ∈ inits then upper w else capitalize w := by
    intro w
    by_cases h : lower w ∈ inits
    · simp [renderWord, (isInitialism_iff inits w).2 h, h]
    · have : isInitialism inits w = false := by
        cases hi : isInitialism inits w with
        | false => rfl
        | true => exact absurd ((isInitialism_iff inits w).1 hi) h
      simp [renderWord, this, h]
  have h1 : convert inits text .goPascal =
      ((tokenize text).map
        (fun w => if lower w ∈ inits then upper w else capitalize w)).flatten := by
    unfold convert
    rw [renderWords_map inits .goPascal _ hgo]
    exact Join_nil_sep _
  have h2 : convert inits text .pascal = ((tokenize text).map capitalize).flatten := by
    unfold convert
    rw [renderWords_map inits .pascal capitalize (fun _ _ => rfl)]
    exact Join_nil_sep _
  have h3 : convert inits text .goCamel =
      (match tokenize text with
        | [] => []
        | w :: ws =>
          lower w ++
            (ws.map (fun v => if lower v ∈ inits then upper v else capitalize v)).flatten) := by
    unfold convert
    cases tokenize text with
    | nil => rfl
    | cons w ws =>
      have hm : ws.map (renderWord inits .goCamel false) =
          ws.map (fun v => if lower v ∈ inits then upper v else capitalize v) :=
        List.map_congr_left (fun v _ => hgc v)
      show strings.Join (lower w :: ws.map (renderWord inits .goCamel false)) [] = _
      rw [Join_nil_sep, hm]
      rfl
  have h4 : convert inits text .camel =
      (match tokenize text with
        | [] => []
        | w :: ws => lower w ++ (ws.map capitalize).flatten) := by
    unfold convert
    cases tokenize text with
    | nil => rfl
    | cons w ws =>
      show strings.Join (lower w :: ws.map capitalize) [] = _
      rw [Join_nil_sep]
      rfl
  refine ⟨h1, h2, h3, h4, fun pre w post ht hw => ?_, fun p pre w post ht hw => ?_,
    fun hno => ?_, fun hno => ?_⟩
  · rw [h1, ht]
    simp [hw]
  · rw [h3, ht]
    simp [hw]
  · rw [h1, h2]
    congr 1
    exact List.map_congr_left (fun w hw => if_neg (hno w hw))
  · rw [h3, h4]
    generalize tokenize text = ts at hno
    cases ts with
    | nil => rfl
    | cons w ws =>
      have : ws.map (fun v => if lower v ∈ inits then upper v else capitalize v) =
          ws.map capitalize :=
        List.map_congr_left (fun v hv => if_neg (hno v hv))
      simp only [this]

/-- C10: for a non-empty list of words, each a non-empty run of lowercase ASCII
letters, joined by single spaces: camel gives the first word followed by the
later words with their first letter upper-cased, pascal every word with its
first letter upper-cased, both with no separator; snake and kebab give the
words joined with "_" and "-", upper-snake and upper-kebab the upper-cased
words joined with "_" and "-". -/
theorem convert_lower_words (inits : List Text) (w : Text) (ws : List Text)
    (h : ∀ v ∈ w :: ws, isLowerWord v = true) :
    convert inits (strings.Join (w :: ws) " ".toList) .camel =
      w ++ (ws.map upperFirst).flatten ∧
    convert inits (strings.Join (w :: ws) " ".toList) .pascal =
      ((w :: ws).map upperFirst).flatten ∧
    convert inits (strings.Join (w :: ws) " ".toList) .snake =
      strings.Join (w :: ws) "_".toList ∧
    convert inits (strings.Join (w :: ws) " ".toList) .upperSnake =
      strings.Join ((w :: ws).map upper) "_".toList ∧
    convert inits (strings.Join (w :: ws) " ".toList) .kebab =
      strings.Join (w :: ws) "-".toList ∧
    convert inits (strings.Join (w :: ws) " ".toList) .upperKebab =
      strings.Join ((w :: ws).map upper) "-".toList := by
  have htok : tokenize (strings.Join (w :: ws) " ".toList) = w :: ws :=
    tokenize_Join_sep (by decide) (w :: ws) (fun v hv => tokenize_lowerWord v (h v hv))
  have hw := h w (List.mem_cons_self _ _)
  have hcap : ws.map capitalize = ws.map upperFirst :=
    List.map_congr_left (fun v hv => capitalize_lowerWord v (h v (List.mem_cons_of_mem _ hv)))
  have hlow : ws.map lower = ws :=
    (List.map_congr_left
      (fun v hv => lower_lowerWord v (h v (List.mem_cons_of_mem _ hv)))).trans (List.map_id _)
  unfold convert
  rw [htok]
  refine ⟨?_, ?_, ?_, ?_, ?_, ?_⟩
  · simp only [renderWords, renderWord, separator, if_true, Bool.false_eq_true, if_false]
    rw [Join_nil_sep, lower_lowerWord w hw]
    show w ++ (ws.map capitalize).flatten = _
    rw [hcap]
  · simp only [renderWords, renderWord, separator]
    rw [Join_nil_sep]
    show capitalize w ++ (ws.map capitalize).flatten = _
    rw [hcap, capitalize_lowerWord w hw]
    rfl
  · simp only [renderWords, renderWord, separator]
    show strings.Join (lower w :: ws.map lower) _ = _
    rw [hlow, lower_lowerWord w hw]
  · rfl
  · simp only [renderWords, renderWord, separator]
    show strings.Join (lower w :: ws.map lower) _ = _
    rw [hlow, lower_lowerWord w hw]
  · rfl

/-- Witness of C10: the words "hello" and "world". -/
theorem convert_lower_words_witness :
    (∀ v ∈ ["hello".toList, "world".toList], isLowerWord v = true) ∧
    (convert listedInitialisms "hello world".toList .camel = "helloWorld".toList ∧
      convert listedInitialisms "hello world".toList .pascal = "HelloWorld".toList ∧
      convert listedInitialisms "hello world".toList .snake = "hello_world".toList ∧
      convert listedInitialisms "hello world".toList .upperSnake = "HELLO_WORLD".toList ∧
      convert listedInitialisms "hello world".toList .kebab = "hello-world".toList ∧
      convert listedInitialisms "hello world".toList .upperKebab = "HELLO-WORLD".toList) :=
  ⟨by decide,
    convert_lower_words listedInitialisms "hello".toList ["world".toList] (by decide)⟩

end Caseconv
